import Mathlib

set_option maxRecDepth 8000

/-!
Verification of the corncobs COBS encoder/decoder (src/src/lib.rs).

Bytes are modelled as `Nat` (the Rust code works on `u8`; the `as u8`
truncation in `encode_len` is modelled by an explicit `% 256`).  Slices
become `List Nat`.  Mutable output buffers are modelled by threading the
remaining capacity (for `decode_buf`) or the whole buffer with explicit
cursors (for `decode_in_place`); an operation of the Rust code that would
panic (an out-of-bounds slice split or index) is modelled by returning
`none`, so `some r` means the call completes without panicking and
returns `r`.
-/

/-- The termination byte used by corncobs (`ZERO` in lib.rs). -/
def ZERO : Nat := 0

/-- Longest run of unchanged bytes that can be encoded using COBS
(`MAX_RUN` in lib.rs). -/
def MAX_RUN : Nat := 254

/-- `max_encoded_len` from lib.rs: largest possible encoded size for an
input message of `raw_len` bytes. -/
def max_encoded_len (raw_len : Nat) : Nat :=
  raw_len + (if raw_len = 0 then 1 else (raw_len + 253) / 254) + 1

/-- `encode_len` from lib.rs: encodes a run length (`0 ..= MAX_RUN`) into a
byte avoiding `ZERO`; `len.wrapping_add(1) as u8` is the `% 256` below. -/
def encode_len (len : Nat) : Nat := (len + 1) % 256

/-- `decode_len` from lib.rs: `usize::from(code).checked_sub(1)` — `none`
for the terminator byte, otherwise the length of the run. -/
def decode_len (code : Nat) : Option Nat :=
  if code = 0 then none else some (code - 1)

/-- Errors that can occur while decoding (`CobsError` in lib.rs). -/
inductive CobsError where
  | Truncated
deriving DecidableEq, Repr

/-- Rust's `bytes.split(|&b| b == ZERO)`: the maximal zero-free segments of
the input, with an empty segment for every leading, trailing or adjacent
zero (so the result always has one more segment than the input has zeros,
and is never the empty list of segments). -/
def splitOnZero : List Nat → List (List Nat)
  | [] => [[]]
  | b :: rest =>
    if b = ZERO then [] :: splitOnZero rest
    else
      match splitOnZero rest with
      | r :: rs => (b :: r) :: rs
      | [] => [[b]]

/-- The inner `loop` of `encode_buf`, as the sequence of bytes it writes
for one run: repeatedly emit a chunk of `min run.length MAX_RUN` bytes
preceded by its `encode_len` overhead byte, stopping as soon as the
remainder of the run is empty (so an empty run still emits one chunk). -/
def encodeRunChunks (run : List Nat) : List Nat :=
  (encode_len (min run.length MAX_RUN) :: run.take (min run.length MAX_RUN)) ++
    (if (run.drop (min run.length MAX_RUN)).isEmpty then []
     else encodeRunChunks (run.drop (min run.length MAX_RUN)))
termination_by run.length
decreasing_by
  simp only [List.isEmpty_iff, ← List.length_eq_zero, List.length_drop, MAX_RUN] at *
  omega

/-- The full byte sequence `encode_buf` writes into its output buffer:
the chunks of every run (in order), then the terminating `ZERO`. -/
def encodeBytes (bytes : List Nat) : List Nat :=
  ((splitOnZero bytes).map encodeRunChunks).flatten ++ [ZERO]

/-- The inner `loop` of `encode_buf` with the output buffer threaded
through, as in the Rust code: `output.split_at_mut(chunk_len + 1)` panics
(`none`) when the remaining output is too short, otherwise the chunk is
written at the front and the loop continues on the shortened output.
Returns the bytes written for this run and the remaining output. -/
def encodeRunInto (run out : List Nat) : Option (List Nat × List Nat) :=
  if min run.length MAX_RUN + 1 ≤ out.length then
    (if (run.drop (min run.length MAX_RUN)).isEmpty then
      some ([], out.drop (min run.length MAX_RUN + 1))
     else
      encodeRunInto (run.drop (min run.length MAX_RUN))
        (out.drop (min run.length MAX_RUN + 1))).map
      (fun p =>
        ((encode_len (min run.length MAX_RUN) :: run.take (min run.length MAX_RUN)) ++ p.1,
         p.2))
  else none
termination_by run.length
decreasing_by
  simp only [List.isEmpty_iff, ← List.length_eq_zero, List.length_drop, MAX_RUN] at *
  omega

/-- The `for run in bytes.split(..)` loop of `encode_buf`: process every
run in order, threading the output buffer. -/
def encodeRunsInto : List (List Nat) → List Nat → Option (List Nat × List Nat)
  | [], out => some ([], out)
  | r :: rs, out =>
    (encodeRunInto r out).bind fun p =>
      (encodeRunsInto rs p.2).map fun q => (p.1 ++ q.1, q.2)

/-- `encode_buf` from lib.rs.  After all runs are written, `output[0] = 0`
writes the terminator at the front of the remaining output (a panic,
`none`, if nothing remains), and the returned count is
`orig_size - (output.len() - 1)`, i.e. the number of bytes written
including the terminator.  Returns the final contents of the output
buffer together with that count. -/
def encode_buf (bytes output : List Nat) : Option (List Nat × Nat) :=
  (encodeRunsInto (splitOnZero bytes) output).bind fun p =>
    match p.2 with
    | [] => none
    | _ :: outRest => some (p.1 ++ ZERO :: outRest, output.length - outRest.length)

/-- The run length scanned by `take_run` in lib.rs:
`bytes.iter().take(max_len).position(|&b| b == ZERO).unwrap_or(max_len)`
with `max_len = usize::min(bytes.len(), MAX_RUN)`. -/
def run_len_of (bytes : List Nat) : Nat :=
  ((bytes.take (min bytes.length MAX_RUN)).findIdx? fun b => decide (b = ZERO)).getD
    (min bytes.length MAX_RUN)

/-- `take_run` from lib.rs: take a run (at most `MAX_RUN` zero-free bytes)
off the front of `bytes`; `rest` is `none` if the run consumed the whole
slice, and otherwise the data after the run, with the separating zero
dropped (`rest[1..]`, i.e. `tail`) unless the run has the full `MAX_RUN`
length. -/
def take_run (bytes : List Nat) : List Nat × Option (List Nat) :=
  if (bytes.drop (run_len_of bytes)).isEmpty then
    (bytes.take (run_len_of bytes), none)
  else if run_len_of bytes = MAX_RUN then
    (bytes.take (run_len_of bytes), some (bytes.drop (run_len_of bytes)))
  else
    (bytes.take (run_len_of bytes), some (bytes.drop (run_len_of bytes)).tail)

/-- `EncodeState` from lib.rs: state for incremental encoding. -/
inductive EncodeState where
  | Begin (bytes : List Nat)
  | Run (b : Nat) (run : List Nat) (rest : Option (List Nat))
  | End
deriving Repr

/-- `EncodeState::new_run_state` from lib.rs. -/
def EncodeState.newRunState : Option (List Nat) → EncodeState
  | some rest => .Begin rest
  | none => .End

/-- `EncodeState::next_run_state` from lib.rs. -/
def EncodeState.nextRunState : List Nat → Option (List Nat) → EncodeState
  | b :: run, rest => .Run b run rest
  | [], rest => EncodeState.newRunState rest

/-- `EncodeState::next` from lib.rs: emit one byte and give the state the
iterator continues with (`none` once the terminator has been emitted). -/
def EncodeState.next : EncodeState → Nat × Option EncodeState
  | .Begin bytes =>
    (encode_len (take_run bytes).1.length,
     some (EncodeState.nextRunState (take_run bytes).1 (take_run bytes).2))
  | .Run b run rest => (b, some (EncodeState.nextRunState run rest))
  | .End => (ZERO, none)

theorem run_len_le (bytes : List Nat) : run_len_of bytes ≤ min bytes.length MAX_RUN := by
  unfold run_len_of
  cases hfind : ((bytes.take (min bytes.length MAX_RUN)).findIdx? fun b => decide (b = ZERO)) with
  | none => simp
  | some i =>
    simp only [Option.getD_some]
    have h1 := List.findIdx?_eq_some_iff_findIdx_eq.mp hfind
    have h2 : (bytes.take (min bytes.length MAX_RUN)).length ≤ min bytes.length MAX_RUN := by
      simp [List.length_take]
    omega

/-- Size bookkeeping for `take_run` when the run consumed the whole
slice. -/
theorem take_run_size_none (bytes : List Nat) (h : (take_run bytes).2 = none) :
    bytes.length = (take_run bytes).1.length := by
  have hle := run_len_le bytes
  have hle2 : run_len_of bytes ≤ bytes.length := le_trans hle (Nat.min_le_left _ _)
  unfold take_run at *
  by_cases hempty : (bytes.drop (run_len_of bytes)).isEmpty
  · rw [if_pos hempty] at *
    have h0 : bytes.length ≤ run_len_of bytes := by
      simpa [List.isEmpty_iff, List.drop_eq_nil_iff] using hempty
    simp only [List.length_take]
    omega
  · rw [if_neg hempty] at *
    by_cases hfull : run_len_of bytes = MAX_RUN
    · rw [if_pos hfull] at h
      simp at h
    · rw [if_neg hfull] at h
      simp at h

/-- Size bookkeeping for `take_run` when data remains after the run: the
input splits into the run, the rest, and the dropped zero when one is
dropped. -/
theorem take_run_size_some (bytes r : List Nat) (h : (take_run bytes).2 = some r) :
    bytes.length = (take_run bytes).1.length +
      (if (take_run bytes).1.length = MAX_RUN then r.length else r.length + 1) := by
  have hle := run_len_le bytes
  have hle2 : run_len_of bytes ≤ bytes.length := le_trans hle (Nat.min_le_left _ _)
  unfold take_run at *
  by_cases hempty : (bytes.drop (run_len_of bytes)).isEmpty
  · rw [if_pos hempty] at h
    simp at h
  · rw [if_neg hempty] at *
    have hlt : run_len_of bytes < bytes.length := by
      simpa [List.isEmpty_iff, List.drop_eq_nil_iff] using hempty
    have htk : (bytes.take (run_len_of bytes)).length = run_len_of bytes := by
      simp only [List.length_take]
      omega
    by_cases hfull : run_len_of bytes = MAX_RUN
    · rw [if_pos hfull] at *
      simp only [Option.some.injEq] at h
      subst h
      rw [htk, if_pos hfull, List.length_drop]
      omega
    · rw [if_neg hfull] at *
      simp only [Option.some.injEq] at h
      subst h
      rw [htk, if_neg hfull, List.length_tail, List.length_drop]
      omega

/-- Termination measure for the encode iterator: an upper bound on the
number of bytes still to be emitted from a pending rest value. -/
def restMeasure : Option (List Nat) → Nat
  | none => 1
  | some s => 2 * s.length + 2

/-- Termination measure for the encode iterator on states. -/
def EncodeState.measure : EncodeState → Nat
  | .Begin bytes => 2 * bytes.length + 2
  | .Run _ run rest => 1 + run.length + restMeasure rest
  | .End => 1

theorem next_measure_lt (s : EncodeState) (b : Nat) (s' : EncodeState)
    (h : s.next = (b, some s')) : s'.measure < s.measure := by
  have hMR : MAX_RUN = 254 := rfl
  cases s with
  | Begin bytes =>
    simp only [EncodeState.next, Prod.mk.injEq, Option.some.injEq] at h
    obtain ⟨hb, hs'⟩ := h
    subst hs'
    cases hrun : (take_run bytes).1 with
    | nil =>
      cases hrest : (take_run bytes).2 with
      | none =>
        have hsize := take_run_size_none bytes hrest
        rw [hrun] at hsize
        simp only [List.length_nil] at hsize
        simp only [hrun, hrest, EncodeState.nextRunState, EncodeState.newRunState,
          EncodeState.measure]
        omega
      | some r =>
        have hsize := take_run_size_some bytes r hrest
        rw [hrun] at hsize
        simp only [List.length_nil] at hsize
        split at hsize
        · simp only [hrun, hrest, EncodeState.nextRunState, EncodeState.newRunState,
            EncodeState.measure]
          omega
        · simp only [hrun, hrest, EncodeState.nextRunState, EncodeState.newRunState,
            EncodeState.measure]
          omega
    | cons c run' =>
      cases hrest : (take_run bytes).2 with
      | none =>
        have hsize := take_run_size_none bytes hrest
        rw [hrun] at hsize
        simp only [List.length_cons] at hsize
        simp only [hrun, hrest, EncodeState.nextRunState, EncodeState.measure, restMeasure,
          List.length_cons]
        omega
      | some r =>
        have hsize := take_run_size_some bytes r hrest
        rw [hrun] at hsize
        simp only [List.length_cons] at hsize
        split at hsize
        · simp only [hrun, hrest, EncodeState.nextRunState, EncodeState.measure, restMeasure,
            List.length_cons]
          omega
        · simp only [hrun, hrest, EncodeState.nextRunState, EncodeState.measure, restMeasure,
            List.length_cons]
          omega
  | Run b0 run rest =>
    simp only [EncodeState.next, Prod.mk.injEq, Option.some.injEq] at h
    obtain ⟨hb, hs'⟩ := h
    subst hs'
    cases run with
    | nil =>
      cases rest with
      | none =>
        simp only [EncodeState.nextRunState, EncodeState.newRunState, EncodeState.measure,
          restMeasure, List.length_nil]
        omega
      | some r =>
        simp only [EncodeState.nextRunState, EncodeState.newRunState, EncodeState.measure,
          restMeasure, List.length_nil]
        omega
    | cons c run' =>
      simp only [EncodeState.nextRunState, EncodeState.measure, List.length_cons]
      omega
  | End => simp [EncodeState.next] at h

/-- The iterator built by `encode_iter` in lib.rs, as the list of all the
bytes it yields: repeatedly apply `EncodeState.next` until it reports that
the sequence is exhausted. -/
def encodeIterGo (s : EncodeState) : List Nat :=
  match h : s.next with
  | (b, none) => [b]
  | (b, some s') => b :: encodeIterGo s'
termination_by s.measure
decreasing_by exact next_measure_lt s b s' h

/-- `encode_iter` from lib.rs, as the full (finite) sequence of bytes the
returned iterator yields. -/
def encode_iter (bytes : List Nat) : List Nat := encodeIterGo (.Begin bytes)

/-- The `while let` loop of `decode_buf` in lib.rs.  `cap` is the length of
the remaining output slice, `written` the bytes deposited in the output so
far, `tz` the `trailing_zero` flag.  A `none` result models a panic of the
Rust code (an `output.split_at_mut` beyond the remaining output length);
`some` carries the `Result`: the terminator byte returns `Ok` with the
bytes written, exhausting the input (or a run longer than the remaining
input, which `break`s out of the loop) gives `Err(Truncated)`. -/
def decodeBufGo : List Nat → Nat → List Nat → Bool → Option (Except CobsError (List Nat))
  | [], _, _, _ => some (.error .Truncated)
  | head :: rest, cap, written, tz =>
    match decode_len head with
    | none => some (.ok written)
    | some n =>
      if tz ∧ cap = 0 then none
      else
        let cap1 := if tz then cap - 1 else cap
        let written1 := if tz then written ++ [ZERO] else written
        if n = 0 then decodeBufGo rest cap1 written1 (decide (n ≠ MAX_RUN))
        else if rest.length < n then some (.error .Truncated)
        else if cap1 < n then none
        else decodeBufGo (rest.drop n) (cap1 - n) (written1 ++ rest.take n)
          (decide (n ≠ MAX_RUN))
termination_by bytes _ _ _ => bytes.length
decreasing_by
  · simp
  · simp only [List.length_drop, List.length_cons]
    omega

/-- `decode_buf` from lib.rs.  Only the length of the output buffer matters
for the control flow; the `Ok` value `orig_len - output.len()` is the
number of bytes written, returned here together with those bytes. -/
def decode_buf (bytes output : List Nat) : Option (Except CobsError (List Nat × Nat)) :=
  (decodeBufGo bytes output.length [] false).map fun r => r.map fun w => (w, w.length)

/-- Rust's `slice::copy_within(src..src+n, dst)` on a list: the `n` bytes
starting at `src` are copied over the `n` positions starting at `dst`.
(Callers only use it with both ranges in bounds; see the guards in
`decodeInPlaceGo`.) -/
def copyWithin (l : List Nat) (src n dst : Nat) : List Nat :=
  l.take dst ++ (l.drop src).take n ++ l.drop (dst + n)

theorem copyWithin_length (l : List Nat) (src n dst : Nat)
    (hsrc : src + n ≤ l.length) (hdst : dst + n ≤ l.length) :
    (copyWithin l src n dst).length = l.length := by
  simp only [copyWithin, List.length_append, List.length_take, List.length_drop]
  omega

/-- The `while` loop of `decode_in_place` in lib.rs, with the buffer, the
two cursors and the `extra_zero` flag as explicit state.  A `none` result
models a panic (a `copy_within` or index write out of bounds); the checked
`bytes.len() < inpos + 1 + n` guard returns `Err(Truncated)`, and leaving
the loop (terminator byte, or input exhausted) returns `Ok` with the final
buffer and `if extra_zero { outpos - 1 } else { outpos }`. -/
def decodeInPlaceGo (buf : List Nat) (inpos outpos : Nat) (extraZero : Bool) :
    Option (Except CobsError (List Nat × Nat)) :=
  if h : inpos < buf.length then
    match decode_len (buf.getD inpos 0) with
    | none => some (.ok (buf, if extraZero then outpos - 1 else outpos))
    | some n =>
      if buf.length < inpos + 1 + n then some (.error .Truncated)
      else if buf.length < outpos + n then none
      else if hz : n ≠ MAX_RUN then
        if outpos + n < (copyWithin buf (inpos + 1) n outpos).length then
          decodeInPlaceGo ((copyWithin buf (inpos + 1) n outpos).set (outpos + n) ZERO)
            (inpos + 1 + n) (outpos + n + 1) true
        else none
      else
        decodeInPlaceGo (copyWithin buf (inpos + 1) n outpos) (inpos + 1 + n) (outpos + n) false
  else some (.ok (buf, if extraZero then outpos - 1 else outpos))
termination_by buf.length - inpos
decreasing_by
  · have hc : (copyWithin buf (inpos + 1) n outpos).length = buf.length := by
      apply copyWithin_length <;> omega
    simp only [List.length_set, hc]
    omega
  · have hc : (copyWithin buf (inpos + 1) n outpos).length = buf.length := by
      apply copyWithin_length <;> omega
    simp only [hc]
    omega

/-- `decode_in_place` from lib.rs. -/
def decode_in_place (bytes : List Nat) : Option (Except CobsError (List Nat × Nat)) :=
  decodeInPlaceGo bytes 0 0 false

/-- Modelled from the spec: the three-way per-byte result of the
incremental decoder (`corncobs::DecodeStatus`), whose implementation is
not among the provided sources (the integration tests use
`corncobs::Decoder` and `corncobs::DecodeStatus`, but lib.rs as given does
not contain them).  Spec 4.6: Append(byte) — a decoded byte is available
now; Pending — byte consumed, no output yet; Done — message complete. -/
inductive DecodeStatus where
  | Append (b : Nat)
  | Pending
  | Done
deriving DecidableEq, Repr

/-- Modelled from the spec: the incremental decoder state
(`corncobs::Decoder`), a small record per spec section 9: the remaining
bytes in the current run, and whether the previous run was shorter than
the cap (so an inter-run sentinel is still owed to the output). -/
structure Decoder where
  runRemaining : Nat
  pendingZero : Bool
deriving DecidableEq, Repr

/-- Modelled from the spec: the initial state (`Decoder::default()` in the
tests): no run in progress, no pending sentinel. -/
def Decoder.init : Decoder := ⟨0, false⟩

/-- Modelled from the spec: the transition function (`Decoder::advance`),
one input byte to a new state and a three-way status, per spec 4.6: a byte
inside a run is emitted as Append; the terminator yields Done and resets
the state; an overhead byte is consumed as Pending, except that when the
previous run was shorter than the cap the owed inter-run sentinel is
emitted as Append(0) instead; whether the new run is shorter than the cap
is recorded for the next boundary. -/
def Decoder.advance (d : Decoder) (b : Nat) : Decoder × DecodeStatus :=
  if d.runRemaining ≠ 0 then
    (⟨d.runRemaining - 1, d.pendingZero⟩, .Append b)
  else
    match decode_len b with
    | none => (Decoder.init, .Done)
    | some n => (⟨n, decide (n ≠ MAX_RUN)⟩, if d.pendingZero then .Append ZERO else .Pending)

/-- Feed a byte sequence to the incremental decoder, collecting the status
reported for each byte. -/
def Decoder.feed (d : Decoder) : List Nat → List DecodeStatus
  | [] => []
  | b :: rest => ((d.advance b).1.feed rest).cons (d.advance b).2

/-- The pure value semantics of the `decode_buf` loop: same traversal and
same case order as `decodeBufGo`, without the output-capacity bookkeeping.
Used to state and prove facts about `decode_buf` under the documented
precondition that the output is large enough. -/
def decD : List Nat → Bool → Except CobsError (List Nat)
  | [], _ => .error .Truncated
  | head :: rest, tz =>
    match decode_len head with
    | none => .ok []
    | some n =>
      if n = 0 then (decD rest (decide (n ≠ MAX_RUN))).map
        fun d => (if tz then [ZERO] else []) ++ d
      else if rest.length < n then .error .Truncated
      else (decD (rest.drop n) (decide (n ≠ MAX_RUN))).map
        fun d => (if tz then [ZERO] else []) ++ (rest.take n ++ d)
termination_by bytes _ => bytes.length
decreasing_by
  · simp
  · simp only [List.length_drop, List.length_cons]
    omega

/-- The truncation condition of the `decode_in_place` loop: some
length-claiming head byte claims more bytes than remain.  This is the only
way `decode_in_place` can fail. -/
def ipTruncated : List Nat → Bool
  | [] => false
  | head :: rest =>
    match decode_len head with
    | none => false
    | some n => if rest.length < n then true else ipTruncated (rest.drop n)
termination_by bytes => bytes.length
decreasing_by
  simp only [List.length_drop, List.length_cons]
  omega

/-- The shortest input on which `encode_buf` and `encode_iter` disagree
(and on which the round-trip property fails): a run of exactly `MAX_RUN`
non-zero bytes followed by a zero. -/
def badInput : List Nat := List.replicate 254 1 ++ [0]

theorem splitOnZero_ne_nil (m : List Nat) : splitOnZero m ≠ [] := by
  cases m with
  | nil => simp [splitOnZero]
  | cons b rest =>
    simp only [splitOnZero]
    by_cases hb : b = ZERO
    · simp [hb]
    · simp only [hb, if_false]
      cases h : splitOnZero rest <;> simp

theorem splitOnZero_runs_nonzero (m : List Nat) :
    ∀ r ∈ splitOnZero m, ∀ b ∈ r, b ≠ ZERO := by
  induction m with
  | nil => simp [splitOnZero]
  | cons c rest ih =>
    intro r hr b hb
    simp only [splitOnZero] at hr
    by_cases hc : c = ZERO
    · rw [if_pos hc] at hr
      rcases List.mem_cons.mp hr with h | h
      · subst h; simp at hb
      · exact ih r h b hb
    · rw [if_neg hc] at hr
      cases hsp : splitOnZero rest with
      | nil => exact absurd hsp (splitOnZero_ne_nil rest)
      | cons r0 rs =>
        rw [hsp] at hr
        rcases List.mem_cons.mp hr with h | h
        · subst h
          rcases List.mem_cons.mp hb with h2 | h2
          · subst h2; exact hc
          · exact ih r0 (by rw [hsp]; exact List.mem_cons_self _ _) b h2
        · exact ih r (by rw [hsp]; exact List.mem_cons_of_mem _ h) b hb

theorem splitOnZero_of_nonzero (m : List Nat) (hm : ∀ b ∈ m, b ≠ ZERO) :
    splitOnZero m = [m] := by
  induction m with
  | nil => simp [splitOnZero]
  | cons c rest ih =>
    have hc : c ≠ ZERO := hm c (List.mem_cons_self _ _)
    have hrest := ih fun b hb => hm b (List.mem_cons_of_mem _ hb)
    simp [splitOnZero, hc, hrest]

theorem splitOnZero_append (r m₂ : List Nat) (hr : ∀ b ∈ r, b ≠ ZERO) :
    splitOnZero (r ++ ZERO :: m₂) = r :: splitOnZero m₂ := by
  induction r with
  | nil => simp [splitOnZero]
  | cons c rest ih =>
    have hc : c ≠ ZERO := hr c (List.mem_cons_self _ _)
    have hrest := ih fun b hb => hr b (List.mem_cons_of_mem _ hb)
    simp [splitOnZero, hc, hrest]

theorem exists_first_zero (m : List Nat) (hm : ZERO ∈ m) :
    ∃ r m₂, m = r ++ ZERO :: m₂ ∧ ∀ b ∈ r, b ≠ ZERO := by
  induction m with
  | nil => simp at hm
  | cons c rest ih =>
    by_cases hc : c = ZERO
    · exact ⟨[], rest, by simp [hc], by simp⟩
    · have : ZERO ∈ rest := by
        rcases List.mem_cons.mp hm with h | h
        · exact absurd h.symm hc
        · exact h
      obtain ⟨r, m₂, heq, hr⟩ := ih this
      refine ⟨c :: r, m₂, by simp [heq], ?_⟩
      intro b hb
      rcases List.mem_cons.mp hb with h | h
      · subst h; exact hc
      · exact hr b h

/-- Number of chunks the `encode_buf` inner loop emits for a run. -/
theorem encodeRunChunks_length (r : List Nat) :
    (encodeRunChunks r).length = r.length + ((r.length - 1) / MAX_RUN + 1) := by
  by_cases hle : r.length ≤ MAX_RUN
  · have hmin : min r.length MAX_RUN = r.length := by omega
    have hdrop : (r.drop r.length).isEmpty := by
      simp [List.isEmpty_iff, List.drop_eq_nil_iff]
    rw [encodeRunChunks, hmin, if_pos hdrop]
    have : (r.length - 1) / MAX_RUN = 0 := by
      apply Nat.div_eq_of_lt
      have : MAX_RUN = 254 := rfl
      omega
    simp [List.length_take, this]
  · have hmin : min r.length MAX_RUN = MAX_RUN := by omega
    have hdrop : ¬(r.drop MAX_RUN).isEmpty := by
      simp only [List.isEmpty_iff, List.drop_eq_nil_iff, not_le]
      omega
    rw [encodeRunChunks, hmin, if_neg hdrop]
    have ih := encodeRunChunks_length (r.drop MAX_RUN)
    rw [List.length_drop] at ih
    simp only [List.length_append, List.length_cons, List.length_take, ih, List.length_drop]
    have h254 : MAX_RUN = 254 := rfl
    have harith : (r.length - 1) / MAX_RUN + 1 = (r.length - MAX_RUN - 1) / MAX_RUN + 1 + 1 := by
      have h1 : r.length - 1 = (r.length - MAX_RUN - 1) + 1 * MAX_RUN := by omega
      rw [h1, Nat.add_mul_div_right _ _ (by omega : 0 < MAX_RUN)]
    omega
termination_by r.length
decreasing_by
  have h254 : MAX_RUN = 254 := rfl
  simp only [List.length_drop]
  omega

/-- All bytes the `encode_buf` inner loop emits for a zero-free run are
non-zero. -/
theorem encodeRunChunks_nonzero (r : List Nat) (hr : ∀ x ∈ r, x ≠ ZERO) :
    ∀ b ∈ encodeRunChunks r, b ≠ ZERO := by
  intro b hb
  rw [encodeRunChunks] at hb
  have h254 : MAX_RUN = 254 := rfl
  rcases List.mem_append.mp hb with h | h
  · rcases List.mem_cons.mp h with h2 | h2
    · subst h2
      show encode_len (min r.length MAX_RUN) ≠ ZERO
      unfold encode_len ZERO
      have : min r.length MAX_RUN + 1 < 256 := by omega
      rw [Nat.mod_eq_of_lt this]
      omega
    · exact hr b (List.mem_of_mem_take h2)
  · by_cases hdrop : (r.drop (min r.length MAX_RUN)).isEmpty
    · rw [if_pos hdrop] at h
      simp at h
    · rw [if_neg hdrop] at h
      exact encodeRunChunks_nonzero (r.drop (min r.length MAX_RUN))
        (fun x hx => hr x (List.mem_of_mem_drop hx)) b h
termination_by r.length
decreasing_by
  have h254 : MAX_RUN = 254 := rfl
  simp only [List.isEmpty_iff, List.drop_eq_nil_iff, not_le] at hdrop
  simp only [List.length_drop]
  omega

theorem encodeBytes_append_zero (r m₂ : List Nat) (hr : ∀ b ∈ r, b ≠ ZERO) :
    encodeBytes (r ++ ZERO :: m₂) = encodeRunChunks r ++ encodeBytes m₂ := by
  unfold encodeBytes
  rw [splitOnZero_append r m₂ hr]
  simp [List.append_assoc]

theorem encodeBytes_of_nonzero (m : List Nat) (hm : ∀ b ∈ m, b ≠ ZERO) :
    encodeBytes m = encodeRunChunks m ++ [ZERO] := by
  unfold encodeBytes
  rw [splitOnZero_of_nonzero m hm]
  simp

theorem overhead_succ (n : Nat) (hn : 1 ≤ n) : (n + 253) / 254 = (n - 1) / 254 + 1 := by
  have h1 : n + 253 = (n - 1) + 1 * 254 := by omega
  rw [h1, Nat.add_mul_div_right _ _ (by omega : (0:Nat) < 254)]

theorem nat_div_add_div_le (a b c : Nat) (hc : 0 < c) : a / c + b / c ≤ (a + b) / c := by
  rw [Nat.le_div_iff_mul_le hc, Nat.add_mul]
  exact Nat.add_le_add (Nat.div_mul_le_self a c) (Nat.div_mul_le_self b c)

/-- For zero-free input the encoded frame meets the worst-case bound
exactly. -/
theorem encodeBytes_length_of_nonzero (m : List Nat) (hm : ∀ b ∈ m, b ≠ ZERO) :
    (encodeBytes m).length = max_encoded_len m.length := by
  rw [encodeBytes_of_nonzero m hm, List.length_append, encodeRunChunks_length]
  unfold max_encoded_len
  have h254 : MAX_RUN = 254 := rfl
  by_cases h0 : m.length = 0
  · rw [h0]
    simp [h254]
  · rw [if_neg h0]
    rw [overhead_succ m.length (by omega)]
    simp only [h254, List.length_cons, List.length_nil]

/-- The encoded frame never exceeds the worst-case bound. -/
theorem encodeBytes_length_le (m : List Nat) :
    (encodeBytes m).length ≤ max_encoded_len m.length := by
  by_cases hz : ZERO ∈ m
  · obtain ⟨r, m₂, heq, hr⟩ := exists_first_zero m hz
    subst heq
    have ih := encodeBytes_length_le m₂
    rw [encodeBytes_append_zero r m₂ hr, List.length_append, encodeRunChunks_length]
    have h254 : MAX_RUN = 254 := rfl
    unfold max_encoded_len at *
    have hlen : (r ++ ZERO :: m₂).length = r.length + 1 + m₂.length := by
      simp [List.length_append]
      omega
    rw [hlen]
    have hne : ¬(r.length + 1 + m₂.length = 0) := by omega
    rw [if_neg hne]
    have hsum : (r.length + 1 + m₂.length + 253) / 254 = (r.length + m₂.length) / 254 + 1 := by
      have : r.length + 1 + m₂.length + 253 = (r.length + m₂.length) + 254 := by omega
      rw [this, Nat.add_div_right _ (by omega : (0:Nat) < 254)]
    rw [hsum]
    by_cases h2 : m₂.length = 0
    · rw [h2, if_pos rfl] at ih
      have hdiv : (r.length - 1) / 254 ≤ (r.length + m₂.length) / 254 :=
        Nat.div_le_div_right (by omega)
      simp only [h254]
      omega
    · rw [if_neg h2] at ih
      rw [overhead_succ m₂.length (by omega)] at ih
      have hdiv1 : (r.length - 1) / 254 + (m₂.length - 1) / 254 ≤
          (r.length - 1 + (m₂.length - 1)) / 254 := nat_div_add_div_le _ _ _ (by omega)
      have hdiv2 : (r.length - 1 + (m₂.length - 1)) / 254 ≤ (r.length + m₂.length) / 254 :=
        Nat.div_le_div_right (by omega)
      simp only [h254]
      omega
  · have := encodeBytes_length_of_nonzero m (fun b hb h => hz (h ▸ hb))
    omega
termination_by m.length
decreasing_by
  rw [heq]
  simp only [List.length_append, List.length_cons]
  omega

/-- Every byte of the encoded frame before the final terminator is
non-zero. -/
theorem encodeBytes_body_nonzero (m : List Nat) :
    ∀ b ∈ ((splitOnZero m).map encodeRunChunks).flatten, b ≠ ZERO := by
  intro b hb
  obtain ⟨l, hl, hbl⟩ := List.mem_flatten.mp hb
  obtain ⟨r, hr, rfl⟩ := List.mem_map.mp hl
  exact encodeRunChunks_nonzero r (splitOnZero_runs_nonzero m r hr) b hbl

/-- Under the documented precondition (output at least as long as the
input) `decode_buf`'s loop never panics and computes the pure decode
semantics, appending the decoded bytes to those already written. -/
theorem decodeBufGo_eq_decD (bytes : List Nat) (cap : Nat) (w : List Nat) (tz : Bool)
    (hcap : bytes.length ≤ cap) :
    decodeBufGo bytes cap w tz = some ((decD bytes tz).map fun d => w ++ d) := by
  induction bytes, cap, w, tz using decodeBufGo.induct with
  | case1 cap w tz =>
    simp [decodeBufGo, decD, Except.map]
  | case2 head rest cap w tz hd =>
    simp [decodeBufGo, decD, hd, Except.map]
  | case3 head rest cap w tz n hd hpanic =>
    exfalso
    simp only [List.length_cons] at hcap
    omega
  | case4 head rest cap w tz hnp cap1 w1 hd ih =>
    simp only [List.length_cons] at hcap
    have hcap1 : rest.length ≤ cap1 := by
      show rest.length ≤ (if tz = true then cap - 1 else cap)
      by_cases htz : tz = true <;> simp [htz] <;> omega
    have hrec : decodeBufGo rest (if tz = true then cap - 1 else cap)
        (if tz = true then w ++ [ZERO] else w) (decide (0 ≠ MAX_RUN)) =
        some ((decD rest (decide (0 ≠ MAX_RUN))).map
          fun d => (if tz = true then w ++ [ZERO] else w) ++ d) := ih hcap1
    rw [decodeBufGo, decD]
    cases hdec : decD rest (decide (0 ≠ MAX_RUN)) with
    | error e =>
      rw [hdec] at hrec
      simp only [decide_not] at hrec hdec ⊢
      simp [hd, hnp, hrec, hdec, Except.map]
    | ok d =>
      rw [hdec] at hrec
      simp only [decide_not] at hrec hdec ⊢
      simp [hd, hnp, hrec, hdec, Except.map]
      by_cases htz : tz = true <;> simp [htz, hdec]
  | case5 head rest cap w tz n hd hnp hn0 hlt =>
    rw [decodeBufGo, decD]
    simp [hd, hnp, hn0, hlt, Except.map]
  | case6 head rest cap w tz n hd hnp cap1 hn0 hge hcap1 =>
    exfalso
    simp only [List.length_cons] at hcap
    have hle : rest.length ≤ cap1 := by
      show rest.length ≤ (if tz = true then cap - 1 else cap)
      by_cases htz : tz = true <;> simp [htz] <;> omega
    omega
  | case7 head rest cap w tz n hd hnp cap1 w1 hn0 hge hcapge ih =>
    simp only [List.length_cons] at hcap
    have hcap1 : rest.length ≤ cap1 := by
      show rest.length ≤ (if tz = true then cap - 1 else cap)
      by_cases htz : tz = true <;> simp [htz] <;> omega
    have hcap1' : rest.length ≤ (if tz = true then cap - 1 else cap) := hcap1
    have hcapge' : ¬(if tz = true then cap - 1 else cap) < n := hcapge
    have hdrop : (rest.drop n).length ≤ cap1 - n := by
      simp only [List.length_drop]
      show rest.length - n ≤ (if tz = true then cap - 1 else cap) - n
      omega
    have hrec : decodeBufGo (rest.drop n) ((if tz = true then cap - 1 else cap) - n)
        ((if tz = true then w ++ [ZERO] else w) ++ rest.take n) (decide (n ≠ MAX_RUN)) =
        some ((decD (rest.drop n) (decide (n ≠ MAX_RUN))).map
          fun d => ((if tz = true then w ++ [ZERO] else w) ++ rest.take n) ++ d) := ih hdrop
    rw [decodeBufGo, decD]
    cases hdec : decD (rest.drop n) (decide (n ≠ MAX_RUN)) with
    | error e =>
      rw [hdec] at hrec
      simp only [decide_not] at hrec hdec ⊢
      simp [hd, hnp, hn0, hge, hcapge', hrec, hdec, Except.map]
    | ok d =>
      rw [hdec] at hrec
      simp only [decide_not] at hrec hdec ⊢
      simp [hd, hnp, hn0, hge, hcapge', hrec, hdec, Except.map]
      by_cases htz : tz = true <;> simp [htz, hdec]

/-- The pure decoder never produces more bytes than it consumes. -/
theorem decD_ok_length (bytes : List Nat) (tz : Bool) :
    ∀ d, decD bytes tz = .ok d → d.length ≤ bytes.length := by
  induction bytes, tz using decD.induct with
  | case1 tz =>
    intro d h
    simp [decD] at h
  | case2 head rest tz hd =>
    intro d h
    rw [decD] at h
    simp only [hd, Except.ok.injEq] at h
    subst h
    simp
  | case3 head rest tz hd ih =>
    intro d h
    rw [decD] at h
    simp only [hd, eq_self_iff_true, if_true] at h
    cases hdec : decD rest (decide (0 ≠ MAX_RUN)) with
    | error e => rw [hdec] at h; simp [Except.map] at h
    | ok d' =>
      rw [hdec] at h
      simp only [Except.map, Except.ok.injEq] at h
      subst h
      have := ih d' hdec
      by_cases htz : tz = true <;> simp [htz] <;> omega
  | case4 head rest tz n hd hn0 hlt =>
    intro d h
    rw [decD] at h
    simp [hd, hn0, hlt] at h
  | case5 head rest tz n hd hn0 hge ih =>
    intro d h
    rw [decD] at h
    simp only [hd, if_neg hn0, if_neg hge] at h
    cases hdec : decD (rest.drop n) (decide (n ≠ MAX_RUN)) with
    | error e => rw [hdec] at h; simp [Except.map] at h
    | ok d' =>
      rw [hdec] at h
      simp only [Except.map, Except.ok.injEq] at h
      subst h
      have hlen := ih d' hdec
      simp only [List.length_drop] at hlen
      have htake : (rest.take n).length ≤ n := by
        simp [List.length_take]
      by_cases htz : tz = true <;> simp [htz, List.length_append] <;> omega

/-- On zero-free input the pure decoder always reports truncation: the
only successful exit of the `decode_buf` loop is seeing the terminator. -/
theorem decD_nonzero_error (bytes : List Nat) (tz : Bool)
    (hb : ∀ b ∈ bytes, b ≠ ZERO) : decD bytes tz = .error .Truncated := by
  induction bytes, tz using decD.induct with
  | case1 tz => simp [decD]
  | case2 head rest tz hd =>
    exfalso
    have hne := hb head (List.mem_cons_self _ _)
    unfold decode_len at hd
    by_cases h0 : head = 0
    · exact hne h0
    · rw [if_neg h0] at hd
      exact Option.noConfusion hd
  | case3 head rest tz hd ih =>
    rw [decD]
    simp only [hd, eq_self_iff_true, if_true]
    rw [ih fun b h => hb b (List.mem_cons_of_mem _ h)]
    simp [Except.map]
  | case4 head rest tz n hd hn0 hlt =>
    rw [decD]
    simp [hd, hn0, hlt]
  | case5 head rest tz n hd hn0 hge ih =>
    rw [decD]
    simp only [hd, if_neg hn0, if_neg hge]
    rw [ih fun b h => hb b (List.mem_cons_of_mem _ (List.mem_of_mem_drop h))]
    simp [Except.map]

/-- Once `decode_buf` succeeds, any bytes appended after the terminator
are never examined: the loop returns at the first terminator head. -/
theorem decodeBufGo_append_ok (bytes : List Nat) (cap : Nat) (w : List Nat) (tz : Bool)
    (extra : List Nat) :
    ∀ w', decodeBufGo bytes cap w tz = some (.ok w') →
      decodeBufGo (bytes ++ extra) cap w tz = some (.ok w') := by
  induction bytes, cap, w, tz using decodeBufGo.induct with
  | case1 cap w tz =>
    intro w' h
    simp [decodeBufGo] at h
  | case2 head rest cap w tz hd =>
    intro w' h
    rw [decodeBufGo] at h
    simp only [hd, Option.some.injEq, Except.ok.injEq] at h
    subst h
    rw [List.cons_append, decodeBufGo]
    simp only [hd]
  | case3 head rest cap w tz n hd hpanic =>
    intro w' h
    rw [decodeBufGo] at h
    simp only [hd, if_pos hpanic] at h
    simp at h
  | case4 head rest cap w tz hnp cap1 w1 hd ih =>
    intro w' h
    rw [decodeBufGo] at h
    simp only [hd, if_neg hnp, eq_self_iff_true, if_true] at h
    rw [List.cons_append, decodeBufGo]
    simp only [hd, if_neg hnp, eq_self_iff_true, if_true]
    exact ih w' h
  | case5 head rest cap w tz n hd hnp hn0 hlt =>
    intro w' h
    rw [decodeBufGo] at h
    simp [hd, hnp, hn0, hlt] at h
  | case6 head rest cap w tz n hd hnp cap1 hn0 hge hcap1 =>
    intro w' h
    have hcap1' : (if tz = true then cap - 1 else cap) < n := hcap1
    rw [decodeBufGo] at h
    simp only [hd, if_neg hnp, if_neg hn0, if_neg hge, if_pos hcap1'] at h
    simp at h
  | case7 head rest cap w tz n hd hnp cap1 w1 hn0 hge hcapge ih =>
    intro w' h
    have hcapge' : ¬(if tz = true then cap - 1 else cap) < n := hcapge
    rw [decodeBufGo] at h
    simp only [hd, if_neg hnp, if_neg hn0, if_neg hge, if_neg hcapge'] at h
    rw [List.cons_append, decodeBufGo]
    have hge2 : ¬(rest ++ extra).length < n := by
      simp only [List.length_append]
      omega
    simp only [hd, if_neg hnp, if_neg hn0, if_neg hge2, if_neg hcapge']
    rw [List.take_append_of_le_length (by omega), List.drop_append_of_le_length (by omega)]
    exact ih w' h

/-- If the in-place loop's truncation test fires anywhere, the pure
`decode_buf` semantics also reports truncation. -/
theorem ipTruncated_decD (bytes : List Nat) :
    ∀ tz, ipTruncated bytes = true → decD bytes tz = .error .Truncated := by
  induction bytes using ipTruncated.induct with
  | case1 =>
    intro tz h
    simp [ipTruncated] at h
  | case2 head rest hd =>
    intro tz h
    rw [ipTruncated] at h
    simp only [hd] at h
    simp at h
  | case3 head rest n hd hlt =>
    intro tz h
    rw [decD]
    by_cases hn0 : n = 0
    · exfalso
      subst hn0
      omega
    · simp [hd, hn0, hlt]
  | case4 head rest n hd hge ih =>
    intro tz h
    rw [ipTruncated] at h
    simp only [hd, if_neg hge] at h
    rw [decD]
    by_cases hn0 : n = 0
    · subst hn0
      simp only [hd, eq_self_iff_true, if_true]
      simp only [List.drop_zero] at ih h
      rw [ih _ h]
      simp [Except.map]
    · simp only [hd, if_neg hn0, if_neg hge]
      rw [ih _ h]
      simp [Except.map]

theorem drop_set (l : List Nat) (i k : Nat) (v : Nat) (h : i < k) :
    (l.set i v).drop k = l.drop k := by
  induction l generalizing i k with
  | nil => simp
  | cons a t ih =>
    cases i with
    | zero =>
      cases k with
      | zero => omega
      | succ k' => simp [List.set]
    | succ i' =>
      cases k with
      | zero => omega
      | succ k' =>
        simp only [List.set, List.drop_succ_cons]
        exact ih i' k' (by omega)

theorem drop_copyWithin (l : List Nat) (src n dst k : Nat)
    (hsrc : src + n ≤ l.length) (hdst : dst + n ≤ k) (hk : dst + n ≤ l.length) :
    (copyWithin l src n dst).drop k = l.drop k := by
  unfold copyWithin
  have h1 : (l.take dst).length = dst := by
    simp [List.length_take]
    omega
  have h2 : ((l.drop src).take n).length = n := by
    simp [List.length_take, List.length_drop]
    omega
  rw [List.drop_append_eq_append_drop, List.drop_append_eq_append_drop]
  have hd1 : (l.take dst).drop k = [] := by
    apply List.drop_eq_nil_of_le
    omega
  have hd2 : ((l.drop src).take n).drop (k - (l.take dst).length) = [] := by
    apply List.drop_eq_nil_of_le
    omega
  rw [hd1, hd2]
  simp only [List.nil_append, List.length_append, h1, h2]
  rw [List.drop_drop]
  congr 1
  omega

theorem drop_cons_getD (l : List Nat) (i : Nat) (h : i < l.length) :
    l.drop i = l.getD i 0 :: l.drop (i + 1) := by
  rw [List.getD_eq_getElem l 0 h]
  exact List.drop_eq_getElem_cons h

/-- Invariant proof for the `decode_in_place` loop: with the output cursor
never past the input cursor, the loop never panics; it fails exactly when
some run claims more bytes than remain, and otherwise returns a count
bounded by the buffer length. -/
theorem decodeInPlaceGo_spec (buf : List Nat) (inpos outpos : Nat) (ez : Bool)
    (hout : outpos ≤ inpos) (hin : inpos ≤ buf.length) :
    (ipTruncated (buf.drop inpos) = true →
       decodeInPlaceGo buf inpos outpos ez = some (.error .Truncated)) ∧
    (ipTruncated (buf.drop inpos) = false →
       ∃ b k, decodeInPlaceGo buf inpos outpos ez = some (.ok (b, k)) ∧ k ≤ buf.length) := by
  induction buf, inpos, outpos, ez using decodeInPlaceGo.induct with
  | case1 buf inpos outpos ez hlt hd =>
    have hdrop := drop_cons_getD buf inpos hlt
    rw [decodeInPlaceGo, dif_pos hlt]
    simp only [hd]
    constructor
    · intro htr
      rw [hdrop, ipTruncated] at htr
      simp only [hd] at htr
      simp at htr
    · intro _
      exact ⟨buf, _, rfl, by cases ez <;> simp <;> omega⟩
  | case2 buf inpos outpos ez hlt n hd htrunc =>
    have hdrop := drop_cons_getD buf inpos hlt
    rw [decodeInPlaceGo, dif_pos hlt]
    simp only [hd, if_pos htrunc]
    constructor
    · intro _; trivial
    · intro hfalse
      exfalso
      rw [hdrop, ipTruncated] at hfalse
      simp only [hd] at hfalse
      have : (buf.drop (inpos + 1)).length < n := by
        simp only [List.length_drop]
        omega
      rw [if_pos this] at hfalse
      simp at hfalse
  | case3 buf inpos outpos ez hlt n hd hok hpanic =>
    exfalso
    omega
  | case4 buf inpos outpos ez hlt n hd hok hnopanic hz hset ih =>
    have hdrop := drop_cons_getD buf inpos hlt
    have hclen : (copyWithin buf (inpos + 1) n outpos).length = buf.length :=
      copyWithin_length _ _ _ _ (by omega) (by omega)
    have hout2 : outpos + n + 1 ≤ inpos + 1 + n := by omega
    have hin2 : inpos + 1 + n ≤
        ((copyWithin buf (inpos + 1) n outpos).set (outpos + n) ZERO).length := by
      simp only [List.length_set, hclen]
      omega
    obtain ⟨ih1, ih2⟩ := ih hout2 hin2
    have hsuffix :
        ((copyWithin buf (inpos + 1) n outpos).set (outpos + n) ZERO).drop (inpos + 1 + n) =
          buf.drop (inpos + 1 + n) := by
      rw [drop_set _ _ _ _ (by omega)]
      exact drop_copyWithin _ _ _ _ _ (by omega) (by omega) (by omega)
    have hterm : ipTruncated (buf.drop inpos) = ipTruncated (buf.drop (inpos + 1 + n)) := by
      rw [hdrop, ipTruncated]
      simp only [hd]
      have hge : ¬(buf.drop (inpos + 1)).length < n := by
        simp only [List.length_drop]
        omega
      rw [if_neg hge, List.drop_drop]
    rw [decodeInPlaceGo, dif_pos hlt]
    simp only [hd, if_neg hok, if_neg hnopanic, dif_pos hz, if_pos hset]
    constructor
    · intro htr
      apply ih1
      rw [hsuffix, ← hterm]
      exact htr
    · intro htr
      have h2 := ih2 (by rw [hsuffix, ← hterm]; exact htr)
      obtain ⟨b, k, heq, hk⟩ := h2
      refine ⟨b, k, heq, ?_⟩
      simp only [List.length_set, hclen] at hk
      exact hk
  | case5 buf inpos outpos ez hlt n hd hok hnopanic hz hset =>
    exfalso
    have hclen : (copyWithin buf (inpos + 1) n outpos).length = buf.length :=
      copyWithin_length _ _ _ _ (by omega) (by omega)
    rw [hclen] at hset
    omega
  | case6 buf inpos outpos ez hlt n hd hok hnopanic hz ih =>
    have hdrop := drop_cons_getD buf inpos hlt
    have hclen : (copyWithin buf (inpos + 1) n outpos).length = buf.length :=
      copyWithin_length _ _ _ _ (by omega) (by omega)
    have hout2 : outpos + n ≤ inpos + 1 + n := by omega
    have hin2 : inpos + 1 + n ≤ (copyWithin buf (inpos + 1) n outpos).length := by
      rw [hclen]
      omega
    obtain ⟨ih1, ih2⟩ := ih hout2 hin2
    have hsuffix : (copyWithin buf (inpos + 1) n outpos).drop (inpos + 1 + n) =
        buf.drop (inpos + 1 + n) :=
      drop_copyWithin _ _ _ _ _ (by omega) (by omega) (by omega)
    have hterm : ipTruncated (buf.drop inpos) = ipTruncated (buf.drop (inpos + 1 + n)) := by
      rw [hdrop, ipTruncated]
      simp only [hd]
      have hge : ¬(buf.drop (inpos + 1)).length < n := by
        simp only [List.length_drop]
        omega
      rw [if_neg hge, List.drop_drop]
    rw [decodeInPlaceGo, dif_pos hlt]
    simp only [hd, if_neg hok, if_neg hnopanic, dif_neg hz]
    constructor
    · intro htr
      apply ih1
      rw [hsuffix, ← hterm]
      exact htr
    · intro htr
      have h2 := ih2 (by rw [hsuffix, ← hterm]; exact htr)
      obtain ⟨b, k, heq, hk⟩ := h2
      refine ⟨b, k, heq, ?_⟩
      rw [hclen] at hk
      exact hk
  | case7 buf inpos outpos ez hge =>
    have hdrop : buf.drop inpos = [] := by
      apply List.drop_eq_nil_of_le
      omega
    rw [decodeInPlaceGo, dif_neg hge]
    constructor
    · intro htr
      rw [hdrop] at htr
      simp [ipTruncated] at htr
    · intro _
      exact ⟨buf, _, rfl, by cases ez <;> simp <;> omega⟩

/-- When the remaining output can hold all the chunks of a run, the
buffer-threading loop writes exactly `encodeRunChunks run`. -/
theorem encodeRunInto_eq (run out : List Nat)
    (h : (encodeRunChunks run).length ≤ out.length) :
    encodeRunInto run out =
      some (encodeRunChunks run, out.drop (encodeRunChunks run).length) := by
  rw [encodeRunChunks] at *
  by_cases hdrop : (run.drop (min run.length MAX_RUN)).isEmpty
  · rw [if_pos hdrop] at *
    rw [encodeRunInto]
    have hmin2 : min (min run.length MAX_RUN) run.length = min run.length MAX_RUN := by
      omega
    simp only [List.append_nil] at h ⊢
    rw [if_pos (by simp only [List.length_cons, List.length_take] at h ⊢; omega),
      if_pos hdrop]
    simp [Option.map, List.length_cons, List.length_take, hmin2]
  · rw [if_neg hdrop] at *
    have hlen1 : min run.length MAX_RUN + 1 ≤ out.length := by
      simp only [List.length_append, List.length_cons, List.length_take] at h
      omega
    have ih := encodeRunInto_eq (run.drop (min run.length MAX_RUN))
      (out.drop (min run.length MAX_RUN + 1))
      (by
        simp only [List.length_append, List.length_cons, List.length_take,
          List.length_drop] at h ⊢
        omega)
    rw [encodeRunInto, if_pos hlen1, if_neg hdrop, ih]
    simp only [Option.map]
    have hmin2 : min (min run.length MAX_RUN) run.length = min run.length MAX_RUN := by
      omega
    congr 2
    rw [List.drop_drop]
    congr 1
    simp only [List.length_append, List.length_cons, List.length_take, hmin2]
termination_by run.length
decreasing_by
  have h254 : MAX_RUN = 254 := rfl
  simp only [List.isEmpty_iff, List.drop_eq_nil_iff, not_le] at hdrop
  simp only [List.length_drop]
  omega

/-- When the output can hold the chunks of all runs, the run loop of
`encode_buf` writes exactly their concatenation. -/
theorem encodeRunsInto_eq (runs : List (List Nat)) (out : List Nat)
    (h : ((runs.map encodeRunChunks).flatten).length ≤ out.length) :
    encodeRunsInto runs out = some ((runs.map encodeRunChunks).flatten,
      out.drop ((runs.map encodeRunChunks).flatten).length) := by
  induction runs generalizing out with
  | nil => simp [encodeRunsInto]
  | cons r rs ih =>
    simp only [List.map_cons, List.flatten_cons, List.length_append] at h ⊢
    have h1 : (encodeRunChunks r).length ≤ out.length := by omega
    have h2 : ((rs.map encodeRunChunks).flatten).length ≤
        (out.drop (encodeRunChunks r).length).length := by
      simp only [List.length_drop]
      omega
    rw [encodeRunsInto, encodeRunInto_eq r out h1]
    simp only [Option.bind]
    rw [ih _ h2]
    simp only [Option.map]
    congr 2
    rw [List.drop_drop]

/-- `encode_buf` under its documented precondition: it writes the frame
`encodeBytes bytes` at the front of the output, leaves the tail of the
output unchanged, and returns the frame length. -/
theorem encode_buf_eq (bytes output : List Nat)
    (h : (encodeBytes bytes).length ≤ output.length) :
    encode_buf bytes output =
      some (encodeBytes bytes ++ output.drop (encodeBytes bytes).length,
        (encodeBytes bytes).length) := by
  have hlen : (encodeBytes bytes).length =
      (((splitOnZero bytes).map encodeRunChunks).flatten).length + 1 := by
    simp [encodeBytes]
  rw [hlen] at h
  unfold encode_buf
  rw [encodeRunsInto_eq _ _ (by omega)]
  simp only [Option.bind]
  set A := (((splitOnZero bytes).map encodeRunChunks).flatten).length with hA
  cases hout : output.drop A with
  | nil =>
    exfalso
    have : output.length - A = 0 := by
      rw [← List.length_drop, hout]
      rfl
    omega
  | cons o rest =>
    have hrest : rest = output.drop (A + 1) := by
      have := List.tail_drop output A
      rw [hout] at this
      simpa using this
    have hrestlen : rest.length = output.length - (A + 1) := by
      rw [hrest, List.length_drop]
    simp only [Option.some.injEq, Prod.mk.injEq]
    refine ⟨?_, ?_⟩
    · rw [hlen, encodeBytes, List.append_assoc, List.singleton_append, hrest]
    · rw [hlen, hrestlen]
      omega

theorem replicate_nonzero : ∀ b ∈ List.replicate 254 (1:Nat), b ≠ ZERO := by
  intro b hb
  have := List.eq_of_mem_replicate hb
  subst this
  decide

theorem encodeRunChunks_replicate :
    encodeRunChunks (List.replicate 254 1) = 255 :: List.replicate 254 1 := by
  rw [encodeRunChunks]
  have hlen : (List.replicate 254 (1:Nat)).length = 254 := by
    rw [List.length_replicate]
  have hmin : min (List.replicate 254 (1:Nat)).length MAX_RUN = 254 := by
    rw [hlen]
    decide
  have htake : (List.replicate 254 (1:Nat)).take 254 = List.replicate 254 1 := by
    have := List.take_length (List.replicate 254 (1:Nat))
    rwa [List.length_replicate] at this
  have hdrop : (List.replicate 254 (1:Nat)).drop 254 = [] := by
    apply List.drop_eq_nil_of_le
    rw [List.length_replicate]
  rw [hmin, hdrop, htake]
  norm_num [encode_len]

theorem encodeRunChunks_nil : encodeRunChunks [] = [1] := by
  rw [encodeRunChunks]
  simp [encode_len]

theorem encodeBytes_nil : encodeBytes [] = [1, 0] := by
  rw [encodeBytes]
  simp [splitOnZero, encodeRunChunks_nil, ZERO]

theorem encodeBytes_badInput :
    encodeBytes badInput = 255 :: (List.replicate 254 1 ++ [1, 0]) := by
  have h : badInput = List.replicate 254 1 ++ ZERO :: [] := rfl
  rw [h, encodeBytes_append_zero _ _ replicate_nonzero, encodeRunChunks_replicate,
    encodeBytes_nil]
  simp only [List.cons_append, List.append_assoc]

theorem decD_tail10 : decD [1, 0] false = .ok [] := by
  rw [decD]
  have h1 : decode_len 1 = some 0 := rfl
  simp only [h1, eq_self_iff_true, if_true]
  rw [decD]
  have h0 : decode_len 0 = none := rfl
  simp only [h0]
  simp [Except.map]

theorem decD_badframe :
    decD (255 :: (List.replicate 254 1 ++ [1, 0])) false = .ok (List.replicate 254 1) := by
  rw [decD]
  have hd : decode_len 255 = some 254 := rfl
  have hlen : (List.replicate 254 (1:Nat)).length = 254 := by
    rw [List.length_replicate]
  have hrest : (List.replicate 254 (1:Nat) ++ [1, 0]).length = 256 := by
    rw [List.length_append, hlen]
    rfl
  have htake : (List.replicate 254 (1:Nat) ++ [1, 0]).take 254 = List.replicate 254 1 := by
    have := List.take_left (List.replicate 254 (1:Nat)) [1, 0]
    rwa [hlen] at this
  have hdropl : (List.replicate 254 (1:Nat) ++ [1, 0]).drop 254 = [1, 0] := by
    have := List.drop_left (List.replicate 254 (1:Nat)) [1, 0]
    rwa [hlen] at this
  have hflag : decide ((254:Nat) ≠ MAX_RUN) = false := by decide
  simp only [hd, hrest]
  rw [if_neg (by norm_num), if_neg (by norm_num), htake, hdropl, hflag, decD_tail10]
  simp [Except.map]

theorem encodeIterGo_step (s : EncodeState) (b : Nat) (s' : EncodeState)
    (h : s.next = (b, some s')) : encodeIterGo s = b :: encodeIterGo s' := by
  rw [encodeIterGo, h]

theorem encodeIterGo_end : encodeIterGo EncodeState.End = [ZERO] := by
  rw [encodeIterGo]
  rfl

/-- Draining a `Run` state emits the pending byte and the rest of the run,
then continues from the following state. -/
theorem encodeIterGo_run (b : Nat) (run : List Nat) (rest : Option (List Nat)) :
    encodeIterGo (.Run b run rest) =
      b :: (run ++ encodeIterGo (EncodeState.newRunState rest)) := by
  induction run generalizing b with
  | nil =>
    have h : (EncodeState.Run b [] rest).next = (b, some (EncodeState.newRunState rest)) := rfl
    rw [encodeIterGo_step _ _ _ h]
    simp
  | cons c run' ih =>
    have h : (EncodeState.Run b (c :: run') rest).next =
        (b, some (EncodeState.Run c run' rest)) := rfl
    rw [encodeIterGo_step _ _ _ h, ih]
    simp

theorem encodeIterGo_begin (bytes : List Nat) :
    encodeIterGo (.Begin bytes) =
      encode_len (take_run bytes).1.length ::
        encodeIterGo (EncodeState.nextRunState (take_run bytes).1 (take_run bytes).2) := by
  apply encodeIterGo_step
  rfl

theorem take_run_badInput : take_run badInput = (List.replicate 254 1, some [0]) := by
  rfl

theorem take_run_zero : take_run [0] = ([], some []) := by
  rfl

theorem take_run_nil : take_run [] = ([], none) := by
  rfl

theorem encode_iter_badInput :
    encode_iter badInput = 255 :: (List.replicate 254 1 ++ [1, 1, 0]) := by
  rw [encode_iter, encodeIterGo_begin, take_run_badInput]
  have h1 : List.replicate 254 (1:Nat) = 1 :: List.replicate 253 1 := rfl
  rw [h1]
  rw [show EncodeState.nextRunState (1 :: List.replicate 253 1) (some [0]) =
    EncodeState.Run 1 (List.replicate 253 1) (some [0]) from rfl]
  rw [encodeIterGo_run]
  rw [show EncodeState.newRunState (some [0]) = EncodeState.Begin [0] from rfl]
  rw [encodeIterGo_begin, take_run_zero]
  rw [show EncodeState.nextRunState ([] : List Nat) (some []) =
    EncodeState.Begin [] from rfl]
  rw [encodeIterGo_begin, take_run_nil]
  rw [show EncodeState.nextRunState ([] : List Nat) (none : Option (List Nat)) =
    EncodeState.End from rfl]
  rw [encodeIterGo_end]
  have h2 : encode_len (1 :: List.replicate 253 (1:Nat)).length = 255 := by
    rw [List.length_cons, List.length_replicate]
    rfl
  have h3 : encode_len ([] : List Nat).length = 1 := rfl
  rw [h2, h3]
  simp [ZERO]

theorem encodeRunChunks_single7 : encodeRunChunks [7] = [2, 7] := by
  rw [encodeRunChunks]
  simp [encode_len, MAX_RUN]

theorem encodeBytes_single7 : encodeBytes [7] = [2, 7, 0] := by
  rw [encodeBytes]
  have hs : splitOnZero [7] = [[7]] := by
    simp [splitOnZero, ZERO]
  rw [hs]
  simp [encodeRunChunks_single7, ZERO]

theorem decode_in_place_nil : decode_in_place ([] : List Nat) = some (.ok ([], 0)) := by
  rw [decode_in_place, decodeInPlaceGo]
  simp [ZERO]

theorem decode_in_place_one : decode_in_place [1] = some (.ok ([0], 0)) := by
  rw [decode_in_place, decodeInPlaceGo]
  norm_num [decode_len, MAX_RUN, copyWithin, ZERO]
  rw [decodeInPlaceGo]
  norm_num

theorem decode_in_place_31 : decode_in_place [3, 1] = some (.error .Truncated) := by
  rw [decode_in_place, decodeInPlaceGo]
  norm_num [decode_len]

theorem decD_one : decD [1] false = .error .Truncated := by
  rw [decD]
  have h1 : decode_len 1 = some 0 := rfl
  simp only [h1, eq_self_iff_true, if_true]
  rw [decD]
  simp [Except.map]

/-- C1: the claimed round-trip property (decoding an encoded message, with
any encode variant crossed with any decode variant, returns exactly the
original message) fails on the code.  For the 255-byte message of 254 ones
followed by a zero, `encode_buf` emits the frame FF, 01 × 254, 01, 00, and
`decode_buf` decodes that frame to the 254 ones only: the trailing zero of
the message is lost, so the decoded length is 254, not 255. -/
theorem c1_roundtrip_fails_on_badInput :
    decode_buf (encodeBytes badInput) (List.replicate 300 0) =
      some (.ok (List.replicate 254 1, 254)) ∧
    badInput.length = 255 ∧
    List.replicate 254 (1:Nat) ≠ badInput := by
  refine ⟨?_, ?_, ?_⟩
  · have hcap : (encodeBytes badInput).length ≤ (List.replicate 300 (0:Nat)).length := by
      rw [encodeBytes_badInput]
      simp [List.length_replicate]
    rw [decode_buf, decodeBufGo_eq_decD _ _ _ _ hcap, encodeBytes_badInput, decD_badframe]
    simp [Except.map, List.length_replicate]
  · rw [badInput, List.length_append, List.length_replicate]
    rfl
  · intro h
    have := congrArg List.length h
    rw [badInput, List.length_append, List.length_replicate] at this
    simp at this

/-- C2: `encode_buf` and `encode_iter` do not produce identical output for
all inputs: on the 255-byte message of 254 ones followed by a zero,
`encode_iter` yields the 258-byte sequence FF, 01 × 254, 01, 01, 00 while
`encode_buf` writes the 257-byte sequence FF, 01 × 254, 01, 00 (it omits
the empty chunk that must follow a run whose length is an exact multiple
of `MAX_RUN` when the run is terminated by a zero). -/
theorem c2_encoders_diverge_on_badInput :
    encode_iter badInput = 255 :: (List.replicate 254 1 ++ [1, 1, 0]) ∧
    encodeBytes badInput = 255 :: (List.replicate 254 1 ++ [1, 0]) ∧
    encode_iter badInput ≠ encodeBytes badInput := by
  refine ⟨encode_iter_badInput, encodeBytes_badInput, ?_⟩
  rw [encode_iter_badInput, encodeBytes_badInput]
  intro h
  have := congrArg List.length h
  simp [List.length_replicate] at this

/-- C4: for every message `m` the number of bytes `encode_buf` produces,
`(encodeBytes m).length`, is at most `max_encoded_len m.length`, and when
`m` contains no zero byte (the worst case) the bound is attained
exactly. -/
theorem c4_size_bound (m : List Nat) :
    (encodeBytes m).length ≤ max_encoded_len m.length ∧
    ((∀ b ∈ m, b ≠ ZERO) → (encodeBytes m).length = max_encoded_len m.length) :=
  ⟨encodeBytes_length_le m, encodeBytes_length_of_nonzero m⟩

theorem c4_size_bound_witness :
    (encodeBytes [7, 7]).length ≤ max_encoded_len ([7, 7] : List Nat).length ∧
    (encodeBytes [7, 7]).length = max_encoded_len ([7, 7] : List Nat).length :=
  ⟨(c4_size_bound [7, 7]).1, (c4_size_bound [7, 7]).2 (by decide)⟩

/-- C8: every frame produced by `encode_buf` contains the zero byte
exactly once, as its final byte; every earlier byte is non-zero. -/
theorem c8_frame_sentinel (m : List Nat) :
    (encodeBytes m).getLast? = some ZERO ∧
    (encodeBytes m).count ZERO = 1 ∧
    ∀ b ∈ ((splitOnZero m).map encodeRunChunks).flatten, b ≠ ZERO := by
  refine ⟨?_, ?_, encodeBytes_body_nonzero m⟩
  · rw [encodeBytes]
    exact List.getLast?_concat _
  · rw [encodeBytes, List.count_append]
    have h0 : (((splitOnZero m).map encodeRunChunks).flatten).count ZERO = 0 :=
      List.count_eq_zero.mpr fun h => encodeBytes_body_nonzero m ZERO h rfl
    rw [h0]
    rfl

/-- C9: the incremental per-byte decoder (modelled from the spec, as its
implementation is not among the provided sources), fed the byte sequence
04 80 80 80 00 from its initial state, reports Pending for the overhead
byte, then Append(0x80) three times, then Done. -/
theorem c9_incremental_decoder :
    Decoder.init.feed [4, 0x80, 0x80, 0x80, 0] =
      [DecodeStatus.Pending, .Append 0x80, .Append 0x80, .Append 0x80, .Done] := by
  rfl

/-- C3: on arbitrary (valid or malformed) input, with an output buffer at
least as long as the input, `decode_buf` completes without panicking
(result is `some`), and `decode_in_place` does so unconditionally; each
returns either Err(Truncated) or Ok with a decoded length at most the
input length. -/
theorem c3_decode_safety (bytes out : List Nat) (hout : bytes.length ≤ out.length) :
    (∃ r, decode_buf bytes out = some r) ∧
    (∀ w n, decode_buf bytes out = some (.ok (w, n)) → n ≤ bytes.length) ∧
    (∃ r, decode_in_place bytes = some r) ∧
    (∀ b n, decode_in_place bytes = some (.ok (b, n)) → n ≤ bytes.length) := by
  have hspec := decodeInPlaceGo_spec bytes 0 0 false (le_refl 0) (Nat.zero_le _)
  rw [List.drop_zero] at hspec
  refine ⟨?_, ?_, ?_, ?_⟩
  · rw [decode_buf, decodeBufGo_eq_decD _ _ _ _ hout]
    exact ⟨_, rfl⟩
  · intro w n h
    rw [decode_buf, decodeBufGo_eq_decD _ _ _ _ hout] at h
    cases hdec : decD bytes false with
    | error e =>
      rw [hdec] at h
      simp [Except.map] at h
    | ok dd =>
      rw [hdec] at h
      simp only [Option.map, Except.map, Option.some.injEq, Except.ok.injEq,
        Prod.mk.injEq, List.nil_append] at h
      obtain ⟨hw, hn⟩ := h
      have := decD_ok_length bytes false dd hdec
      omega
  · rw [decode_in_place]
    cases htr : ipTruncated bytes with
    | true => exact ⟨_, hspec.1 htr⟩
    | false =>
      obtain ⟨b, k, heq, hk⟩ := hspec.2 htr
      exact ⟨_, heq⟩
  · intro b n h
    rw [decode_in_place] at h
    cases htr : ipTruncated bytes with
    | true =>
      rw [hspec.1 htr] at h
      simp at h
    | false =>
      obtain ⟨b', k, heq, hk⟩ := hspec.2 htr
      rw [heq] at h
      simp only [Option.some.injEq, Except.ok.injEq, Prod.mk.injEq] at h
      obtain ⟨hb, hn⟩ := h
      omega

theorem c3_decode_safety_witness :
    ([2, 7, 0] : List Nat).length ≤ ([5, 5, 5] : List Nat).length ∧
    ((∃ r, decode_buf [2, 7, 0] [5, 5, 5] = some r) ∧
     (∀ w n, decode_buf [2, 7, 0] [5, 5, 5] = some (.ok (w, n)) →
       n ≤ ([2, 7, 0] : List Nat).length) ∧
     (∃ r, decode_in_place [2, 7, 0] = some r) ∧
     (∀ b n, decode_in_place [2, 7, 0] = some (.ok (b, n)) →
       n ≤ ([2, 7, 0] : List Nat).length)) :=
  ⟨by decide, c3_decode_safety [2, 7, 0] [5, 5, 5] (by decide)⟩

/-- C5 counterexample: the original claim says every proper, non-complete
prefix of a valid frame decodes to Err(Truncated) under each decode
variant, including `decode_in_place`.  The empty prefix of the valid frame
01 00 (the encoding of the empty message) makes `decode_in_place` return
Ok(0), not Err(Truncated). -/
theorem c5_counterexample :
    encodeBytes [] = [1, 0] ∧
    decode_in_place ([] : List Nat) = some (.ok ([], 0)) :=
  ⟨encodeBytes_nil, decode_in_place_nil⟩

/-- C5 (amended): for every message `m`, every proper prefix `p` of the
frame `encode_buf` produces for `m`, and every output buffer at least as
long as `p`, `decode_buf` on `p` returns Err(Truncated).  (The original
claim also asserted this of `decode_in_place`, which instead returns Ok
on prefixes that end at a run boundary.) -/
theorem c5_prefix_truncated (m p out : List Nat)
    (hpre : ∃ t, p ++ t = encodeBytes m)
    (hproper : p.length < (encodeBytes m).length)
    (hout : p.length ≤ out.length) :
    decode_buf p out = some (.error .Truncated) := by
  obtain ⟨t, ht⟩ := hpre
  have hpz : ∀ b ∈ p, b ≠ ZERO := by
    intro b hb
    have hA : (encodeBytes m).length =
        (((splitOnZero m).map encodeRunChunks).flatten).length + 1 := by
      simp [encodeBytes]
    have hple : p.length ≤ (((splitOnZero m).map encodeRunChunks).flatten).length := by
      omega
    have hp : p = (((splitOnZero m).map encodeRunChunks).flatten).take p.length := by
      have h1 : (p ++ t).take p.length = p := List.take_left p t
      rw [ht] at h1
      rw [encodeBytes, List.take_append_of_le_length hple] at h1
      exact h1.symm
    rw [hp] at hb
    exact encodeBytes_body_nonzero m b (List.mem_of_mem_take hb)
  rw [decode_buf, decodeBufGo_eq_decD _ _ _ _ hout, decD_nonzero_error p false hpz]
  simp [Except.map]

theorem c5_prefix_truncated_witness :
    (∃ t, [2] ++ t = encodeBytes [7]) ∧
    ([2] : List Nat).length < (encodeBytes [7]).length ∧
    ([2] : List Nat).length ≤ ([5] : List Nat).length ∧
    decode_buf [2] [5] = some (.error .Truncated) :=
  ⟨⟨[7, 0], by rw [encodeBytes_single7]; rfl⟩,
   by rw [encodeBytes_single7]; decide,
   by decide,
   c5_prefix_truncated [7] [2] [5] ⟨[7, 0], by rw [encodeBytes_single7]; rfl⟩
     (by rw [encodeBytes_single7]; decide) (by decide)⟩

/-- C6 counterexample: the original claim says `decode_in_place` returns
Err(Truncated) exactly when `decode_buf` does.  On the input 01 (a
complete empty run with no terminator), `decode_buf` returns
Err(Truncated) but `decode_in_place` returns Ok(0). -/
theorem c6_counterexample :
    decode_buf [1] [5] = some (.error .Truncated) ∧
    decode_in_place [1] = some (.ok ([0], 0)) := by
  refine ⟨?_, decode_in_place_one⟩
  rw [decode_buf, decodeBufGo_eq_decD _ _ _ _ (by decide), decD_one]
  simp [Except.map]

/-- C6 (amended): the agreement is one-directional: whenever
`decode_in_place` fails with Err(Truncated), `decode_buf` (with an output
buffer at least as long as the input) also fails with Err(Truncated).
The converse fails: when the input is exhausted at a run boundary without
the terminator, `decode_buf` reports Truncated while `decode_in_place`
returns Ok. -/
theorem c6_inplace_error_implies_buf_error (bytes out : List Nat)
    (hout : bytes.length ≤ out.length) (e : CobsError)
    (h : decode_in_place bytes = some (.error e)) :
    decode_buf bytes out = some (.error .Truncated) := by
  have hspec := decodeInPlaceGo_spec bytes 0 0 false (le_refl 0) (Nat.zero_le _)
  rw [List.drop_zero] at hspec
  cases htr : ipTruncated bytes with
  | false =>
    obtain ⟨b, k, heq, hk⟩ := hspec.2 htr
    rw [decode_in_place] at h
    rw [heq] at h
    simp at h
  | true =>
    rw [decode_buf, decodeBufGo_eq_decD _ _ _ _ hout, ipTruncated_decD bytes false htr]
    simp [Except.map]

theorem c6_inplace_error_implies_buf_error_witness :
    ([3, 1] : List Nat).length ≤ ([5, 5] : List Nat).length ∧
    decode_in_place [3, 1] = some (.error .Truncated) ∧
    decode_buf [3, 1] [5, 5] = some (.error .Truncated) :=
  ⟨by decide, decode_in_place_31,
   c6_inplace_error_implies_buf_error [3, 1] [5, 5] (by decide) .Truncated
     decode_in_place_31⟩

/-- C7 counterexample: the original claim says the value `encode_buf`
returns is the index of the written terminator.  Encoding the empty
message into the buffer 09 09 07 writes 01 00 and returns 2, but the
terminator sits at index 1, and the byte at index 2 is the untouched 7. -/
theorem c7_counterexample :
    encode_buf ([] : List Nat) [9, 9, 7] = some ([1, 0, 7], 2) ∧
    ([1, 0, 7] : List Nat).getD 2 0 = 7 ∧
    ([1, 0, 7] : List Nat).getD 1 0 = 0 := by
  refine ⟨?_, rfl, rfl⟩
  rw [encode_buf_eq [] [9, 9, 7] (by rw [encodeBytes_nil]; decide), encodeBytes_nil]
  rfl

/-- C7 (amended): for every input and every output buffer of at least
`max_encoded_len` of the input length, `encode_buf` completes and returns
the total number `n` of bytes it wrote (the frame length), with
`n ≤ output.length`; the terminator is the written zero byte at index
`n - 1` (not `n`), and the output past index `n - 1` is untouched. -/
theorem c7_encode_buf_return (bytes output : List Nat)
    (hout : max_encoded_len bytes.length ≤ output.length) :
    ∃ buf n, encode_buf bytes output = some (buf, n) ∧
      n = (encodeBytes bytes).length ∧ n ≤ output.length ∧ 1 ≤ n ∧
      buf.getD (n - 1) 1 = ZERO ∧ buf.drop n = output.drop n := by
  have hlen : (encodeBytes bytes).length ≤ output.length :=
    le_trans (encodeBytes_length_le bytes) hout
  rw [encode_buf_eq bytes output hlen]
  have hA : (encodeBytes bytes).length =
      (((splitOnZero bytes).map encodeRunChunks).flatten).length + 1 := by
    simp [encodeBytes]
  refine ⟨_, _, rfl, rfl, hlen, by omega, ?_, ?_⟩
  · rw [show encodeBytes bytes ++ output.drop (encodeBytes bytes).length =
        (((splitOnZero bytes).map encodeRunChunks).flatten) ++
          (ZERO :: output.drop (encodeBytes bytes).length) from by
      rw [encodeBytes, List.append_assoc]
      rfl]
    rw [List.getD_append_right]
    · rw [show (encodeBytes bytes).length - 1 -
          (((splitOnZero bytes).map encodeRunChunks).flatten).length = 0 from by omega]
      rfl
    · omega
  · have h2 : (encodeBytes bytes ++ output.drop (encodeBytes bytes).length).drop
        (encodeBytes bytes).length = output.drop (encodeBytes bytes).length := by
      have := List.drop_left (encodeBytes bytes) (output.drop (encodeBytes bytes).length)
      exact this
    rw [h2]

theorem c7_encode_buf_return_witness :
    max_encoded_len ([7] : List Nat).length ≤ ([0, 0, 0, 0] : List Nat).length ∧
    (∃ buf n, encode_buf [7] [0, 0, 0, 0] = some (buf, n) ∧
      n = (encodeBytes [7]).length ∧ n ≤ ([0, 0, 0, 0] : List Nat).length ∧ 1 ≤ n ∧
      buf.getD (n - 1) 1 = ZERO ∧ buf.drop n = ([0, 0, 0, 0] : List Nat).drop n) :=
  ⟨by decide, c7_encode_buf_return [7] [0, 0, 0, 0] (by decide)⟩

/-- C10: trailing data after a decoded frame is ignored: if `decode_buf`
returns Ok with written bytes `w` and count `n` on some input, it returns
the same Ok on the input extended by any further bytes, because decoding
stops at the first terminator head and never examines later bytes. -/
theorem c10_trailing_data_ignored (bytes extra out w : List Nat) (n : Nat)
    (h : decode_buf bytes out = some (.ok (w, n))) :
    decode_buf (bytes ++ extra) out = some (.ok (w, n)) := by
  rw [decode_buf] at h ⊢
  cases hgo : decodeBufGo bytes out.length [] false with
  | none =>
    rw [hgo] at h
    simp at h
  | some r =>
    rw [hgo] at h
    cases r with
    | error e =>
      simp [Option.map, Except.map] at h
    | ok w' =>
      simp only [Option.map, Except.map, Option.some.injEq, Except.ok.injEq,
        Prod.mk.injEq] at h
      obtain ⟨hw, hn⟩ := h
      rw [decodeBufGo_append_ok bytes out.length [] false extra w' hgo]
      simp only [Option.map, Except.map, Option.some.injEq, Except.ok.injEq,
        Prod.mk.injEq]
      exact ⟨hw, hn⟩

theorem c10_trailing_data_ignored_witness :
    decode_buf [1, 0] [5, 5] = some (.ok ([], 0)) ∧
    decode_buf ([1, 0] ++ [9, 9]) [5, 5] = some (.ok ([], 0)) := by
  have h : decode_buf [1, 0] [5, 5] = some (.ok ([], 0)) := by
    rw [decode_buf, decodeBufGo_eq_decD _ _ _ _ (by decide), decD_tail10]
    simp [Except.map]
  exact ⟨h, c10_trailing_data_ignored [1, 0] [9, 9] [5, 5] [] 0 h⟩

theorem c8_frame_sentinel_witness :
    (encodeBytes [7]).getLast? = some ZERO ∧
    (encodeBytes [7]).count ZERO = 1 ∧
    ∀ b ∈ ((splitOnZero [7]).map encodeRunChunks).flatten, b ≠ ZERO :=
  c8_frame_sentinel [7]
